import Mathlib

/-!
Shallow embedding of the crypto repository scripts: the fee model and the
trading strategies of invest.py, the daily aggregation step shared by
invest.py, cryptolog.py and crypto_recommendation.py, and the end-of-day
selector functions of crypto_recommendation.py.  Monetary values and
percentage changes are modelled as rationals, calendar days as naturals,
and the insertion-ordered Python dictionaries as association lists.
-/

namespace Crypto

/-- A daily record as produced by the aggregators: calendar date, daily
percentage change, and end-of-day (closing) value. -/
structure DailyRecord where
  date : Nat
  change : ℚ
  end_of_day_value : ℚ
deriving DecidableEq, Repr

/-- The table handled by the scripts: an insertion-ordered mapping from
asset id to the list of daily records of that asset. -/
abbrev Table := List (String × List DailyRecord)

/-- Swap fee as a percentage, invest.py line 8. -/
def SWAP_FEE_PERCENTAGE : ℚ := 0.1 / 100

/-- Transaction fees in USD for each cryptocurrency, invest.py lines 11-20. -/
def TRANSACTION_FEES : List (String × ℚ) :=
  [("monero", 0.05), ("nano", 0.0), ("tron", 0.01), ("solana", 0.00025),
   ("matic-network", 0.001), ("litecoin", 0.03), ("bitcoin-cash", 0.005),
   ("bitcoin", 2.00)]

/-- invest.py apply_swap_fee. -/
def apply_swap_fee (value : ℚ) : ℚ :=
  value * (1 - SWAP_FEE_PERCENTAGE)

/-- invest.py apply_transaction_fee, with TRANSACTION_FEES.get(crypto, 0). -/
def apply_transaction_fee (value : ℚ) (crypto : String) : ℚ :=
  value - (TRANSACTION_FEES.lookup crypto).getD 0

/-- invest.py calculate_portfolio_value.  The Python default for split is 2;
the trading strategies always pass split=1. -/
def calculate_portfolio_value (portfolio_value : ℚ)
    (changes_as_percentages : List (String × ℚ)) (cryptos : List String)
    (split : ℚ) : ℚ :=
  cryptos.foldl (fun daily_value crypto =>
    let percentage_change := (changes_as_percentages.lookup crypto).getD 0
    let post_trade_value := (portfolio_value / split) * (1 + percentage_change / 100)
    daily_value +
      max (apply_transaction_fee (apply_swap_fee post_trade_value) crypto) 0) 0

/-- Index into a record list the way Python writes records[day]; made total
with an all-zero record as default, which is never reached on tables that
carry at least as many records as simulated days. -/
def recordAt (records : List DailyRecord) (day : Nat) : DailyRecord :=
  records.getD day ⟨0, 0, 0⟩

/-- The per-day change dictionary built inside the highest and lowest
strategies: every asset except bitcoin mapped to its change for the given
day, in table order. -/
def day_changes_as_percentages (data : Table) (day : Nat) : List (String × ℚ) :=
  (data.filter (fun p => p.1 != "bitcoin")).map
    (fun p => (p.1, (recordAt p.2 day).change))

/-- Python max over a dictionary keyed by its values: the first key of
strictly maximal value wins; the empty input yields the empty string where
Python would raise ValueError. -/
def max_by_value : List (String × ℚ) → String
  | [] => ""
  | p :: rest => (rest.foldl (fun best q => if best.2 < q.2 then q else best) p).1

/-- Python min over a dictionary keyed by its values: the first key of
strictly minimal value wins. -/
def min_by_value : List (String × ℚ) → String
  | [] => ""
  | p :: rest => (rest.foldl (fun best q => if q.2 < best.2 then q else best) p).1

/-- The daily loop of invest.py highest_change_trading_strategy: day is the
current index, the second argument the number of iterations left. -/
def highestLoop (data : Table) : Nat → Nat → ℚ → String → ℚ
  | _, 0, portfolio_value, _ => portfolio_value
  | day, rem + 1, portfolio_value, top_performer_from_yesterday =>
    let changes := day_changes_as_percentages data day
    let top_performer := max_by_value changes
    let portfolio_value_at_end_of_day :=
      if top_performer_from_yesterday = "" then portfolio_value
      else calculate_portfolio_value portfolio_value changes
        [top_performer_from_yesterday] 1
    highestLoop data (day + 1) rem portfolio_value_at_end_of_day top_performer

/-- invest.py highest_change_trading_strategy.  The Python defaults are
initial_btc=100, days=7 and an empty top_performer_from_yesterday; the
function overwrites that parameter with the empty string before the loop. -/
def highest_change_trading_strategy (data : Table) (initial_btc : ℚ)
    (days : Nat) (top_performer_from_yesterday : String) : ℚ :=
  highestLoop data 0 days initial_btc ""

/-- The daily loop of invest.py lowest_change_trading_strategy. -/
def lowestLoop (data : Table) : Nat → Nat → ℚ → String → ℚ
  | _, 0, portfolio_value, _ => portfolio_value
  | day, rem + 1, portfolio_value, bottom_performer_from_yesterday =>
    let changes := day_changes_as_percentages data day
    let bottom_performer := min_by_value changes
    let portfolio_value_at_end_of_day :=
      if bottom_performer_from_yesterday = "" then portfolio_value
      else calculate_portfolio_value portfolio_value changes
        [bottom_performer_from_yesterday] 1
    lowestLoop data (day + 1) rem portfolio_value_at_end_of_day bottom_performer

/-- invest.py lowest_change_trading_strategy; the
bottom_performer_from_yesterday parameter is likewise overwritten with the
empty string before the loop. -/
def lowest_change_trading_strategy (data : Table) (initial_btc : ℚ)
    (days : Nat) (bottom_performer_from_yesterday : String) : ℚ :=
  lowestLoop data 0 days initial_btc ""

/-- The trailing cumulative change of invest.py catch_the_wave_strategy:
the sum of changes over days max(0, day-2) .. day inclusive. -/
def cumulative_change (records : List DailyRecord) (day : Nat) : ℚ :=
  (List.range' (day - 2) (day + 1 - (day - 2)) 1).foldl
    (fun s d => s + (recordAt records d).change) 0

/-- The momentum scores computed each day by catch_the_wave_strategy for
every asset except bitcoin, in table order. -/
def wave_scores (crypto_data : Table) (day : Nat) : List (String × ℚ) :=
  (crypto_data.filter (fun p => p.1 != "bitcoin")).map
    (fun p => (p.1, cumulative_change p.2 day))

/-- Direct table access crypto_data[crypto][day].change used by
catch_the_wave_strategy when it builds its singleton change dictionaries. -/
def change_at (crypto_data : Table) (crypto : String) (day : Nat) : ℚ :=
  (recordAt ((crypto_data.lookup crypto).getD []) day).change

/-- The daily loop of invest.py catch_the_wave_strategy: when a performer
is already held its day change and fees are applied, and then a second
fee-bearing application is made for the newly selected top performer
(the Python code runs that second call on every day, day 0 included). -/
def waveLoop (crypto_data : Table) : Nat → Nat → ℚ → String → ℚ
  | _, 0, portfolio_value, _ => portfolio_value
  | day, rem + 1, portfolio_value, top_performer_from_yesterday =>
    let top_performer := max_by_value (wave_scores crypto_data day)
    let pv1 :=
      if top_performer_from_yesterday = "" then portfolio_value
      else calculate_portfolio_value portfolio_value
        [(top_performer_from_yesterday,
          change_at crypto_data top_performer_from_yesterday day)]
        [top_performer_from_yesterday] 1
    let pv2 := calculate_portfolio_value pv1
      [(top_performer, change_at crypto_data top_performer day)]
      [top_performer] 1
    waveLoop crypto_data (day + 1) rem pv2 top_performer

/-- invest.py catch_the_wave_strategy; Python defaults are initial_btc=100
and days=7. -/
def catch_the_wave_strategy (crypto_data : Table) (initial_btc : ℚ)
    (days : Nat) : ℚ :=
  waveLoop crypto_data 0 days initial_btc ""

/-- Strategy dispatch of invest.py simulate_weekly_investments: an unknown
strategy name falls back to the highest strategy. -/
def strategy_function (strategy : String) : Table → ℚ → Nat → ℚ :=
  if strategy = "highest" then fun t v d => highest_change_trading_strategy t v d ""
  else if strategy = "lowest" then fun t v d => lowest_change_trading_strategy t v d ""
  else if strategy = "wave" then fun t v d => catch_the_wave_strategy t v d
  else fun t v d => highest_change_trading_strategy t v d ""

/-- invest.py simulate_weekly_investments.  Fetching is abstracted: the four
weekly fetch results are passed as a list of tables, with an empty table
standing for a week whose fetch produced no data; such a week is skipped.
The Python function prints the final total portfolio value and the profit
(total minus seed times 4) and falls off the end; this embedding returns
that printed pair. -/
def simulate_weekly_investments (weekly_data : List Table)
    (initial_weekly_investment : ℚ) (strategy : String) : ℚ × ℚ :=
  let initial_investment := initial_weekly_investment * 4
  let total_portfolio_value := weekly_data.foldl (fun total w =>
    if w = [] then total
    else total + strategy_function strategy w initial_weekly_investment 7) 0
  (total_portfolio_value, total_portfolio_value - initial_investment)

theorem calc_pv_single (pv : ℚ) (changes : List (String × ℚ)) (c : String) :
    calculate_portfolio_value pv changes [c] 1 =
      max (apply_transaction_fee
        (apply_swap_fee (pv * (1 + ((changes.lookup c).getD 0) / 100))) c) 0 := by
  simp [calculate_portfolio_value]

theorem lookup_single (c : String) (ch : ℚ) :
    (([(c, ch)] : List (String × ℚ)).lookup c).getD 0 = ch := by
  simp [List.lookup]

/-- Concrete one-asset table with a single zero-change day, used as input
for concrete evaluations. -/
def exTable1 : Table := [("nano", [⟨0, 0, 1⟩])]

/-- Concrete one-asset table with two zero-change days. -/
def exTable2 : Table := [("nano", [⟨0, 0, 1⟩, ⟨1, 0, 1⟩])]

/-- C3: with all four weekly fetches producing no data, every week is
skipped, the total portfolio value is 0 and the reported profit is minus
four times the weekly seed, for every strategy name. -/
theorem simulate_all_empty_weeks (seed : ℚ) (strategy : String) :
    simulate_weekly_investments [[], [], [], []] seed strategy = (0, -(seed * 4)) := by
  simp [simulate_weekly_investments]

/-- C4: apply_transaction_fee subtracts the flat fee with no flooring, so
it can return a negative number; flooring at zero happens only at the call
site inside calculate_portfolio_value, whose per-asset computation is:
multiply by (1 + change/100), apply the swap fee, subtract the flat fee,
floor at zero. -/
theorem fee_order_and_floor :
    (∀ v c, apply_transaction_fee v c = v - (TRANSACTION_FEES.lookup c).getD 0) ∧
    apply_transaction_fee 1 "bitcoin" < 0 ∧
    (∀ pv ch c, calculate_portfolio_value pv [(c, ch)] [c] 1 =
      max (apply_transaction_fee (apply_swap_fee (pv * (1 + ch / 100))) c) 0) := by
  refine ⟨fun v c => rfl, ?_, fun pv ch c => ?_⟩
  · simp [apply_transaction_fee, TRANSACTION_FEES, List.lookup]
    norm_num
  · rw [calc_pv_single, lookup_single]

/-- C1 counterexample: the wave strategy does charge a fee on day 0: one
simulated day over a one-asset zero-change table turns 100 into 99.9 (the
swap fee of the day-0 purchase), so the first day does not leave the
portfolio value unchanged for every strategy. -/
theorem wave_day0_charges_fee :
    catch_the_wave_strategy exTable1 100 1 ≠ 100 := by
  have h : catch_the_wave_strategy exTable1 100 1 = 999 / 10 := by
    simp [catch_the_wave_strategy, waveLoop, exTable1, wave_scores, cumulative_change,
      recordAt, max_by_value, change_at, calculate_portfolio_value, List.lookup,
      apply_swap_fee, apply_transaction_fee, SWAP_FEE_PERCENTAGE, TRANSACTION_FEES,
      List.range']
    norm_num
  rw [h]
  norm_num

/-- C1 amended: on day 0 the highest and lowest strategies leave the
portfolio value unchanged and charge no fee (the value entering day 1 is
the initial value), while the wave strategy performs a fee-charging
purchase on day 0, applying the day-0 change of the selected leader, the
swap fee and the transaction fee before entering day 1. -/
theorem first_day_behavior (data : Table) (v : ℚ) (days : Nat) (p q : String)
    (h : 0 < days) :
    highest_change_trading_strategy data v days p =
      highestLoop data 1 (days - 1) v
        (max_by_value (day_changes_as_percentages data 0)) ∧
    lowest_change_trading_strategy data v days q =
      lowestLoop data 1 (days - 1) v
        (min_by_value (day_changes_as_percentages data 0)) ∧
    catch_the_wave_strategy data v days =
      waveLoop data 1 (days - 1)
        (calculate_portfolio_value v
          [(max_by_value (wave_scores data 0),
            change_at data (max_by_value (wave_scores data 0)) 0)]
          [max_by_value (wave_scores data 0)] 1)
        (max_by_value (wave_scores data 0)) := by
  obtain ⟨d, rfl⟩ : ∃ d, days = d + 1 := ⟨days - 1, (Nat.succ_pred_eq_of_pos h).symm⟩
  refine ⟨?_, ?_, ?_⟩ <;>
    simp [highest_change_trading_strategy, lowest_change_trading_strategy,
      catch_the_wave_strategy, highestLoop, lowestLoop, waveLoop]

/-- Witness for the amended first-day theorem at a concrete input. -/
theorem first_day_behavior_witness :
    0 < 1 ∧
    (highest_change_trading_strategy exTable1 100 1 "x" =
      highestLoop exTable1 1 0 100
        (max_by_value (day_changes_as_percentages exTable1 0)) ∧
    lowest_change_trading_strategy exTable1 100 1 "y" =
      lowestLoop exTable1 1 0 100
        (min_by_value (day_changes_as_percentages exTable1 0)) ∧
    catch_the_wave_strategy exTable1 100 1 =
      waveLoop exTable1 1 0
        (calculate_portfolio_value 100
          [(max_by_value (wave_scores exTable1 0),
            change_at exTable1 (max_by_value (wave_scores exTable1 0)) 0)]
          [max_by_value (wave_scores exTable1 0)] 1)
        (max_by_value (wave_scores exTable1 0))) :=
  ⟨Nat.one_pos, first_day_behavior exTable1 100 1 "x" "y" Nat.one_pos⟩

/-- C2 counterexample: a day with index at least 1 of the wave strategy is
not a single update-and-fee application: starting day 1 holding nano with
value 99.9 over a zero-change table, one loop step applies the swap fee
twice, so the result differs from the single application of change, swap
fee and transaction fee prescribed by the claim. -/
theorem wave_day_double_fee :
    waveLoop exTable2 1 1 (999 / 10) "nano" ≠
      max (apply_transaction_fee (apply_swap_fee ((999 / 10) * (1 +
        (((day_changes_as_percentages exTable2 1).lookup "nano").getD 0) / 100)))
        "nano") 0 := by
  have h1 : waveLoop exTable2 1 1 (999 / 10) "nano" = 997002999 / 10000000 := by
    simp [waveLoop, exTable2, wave_scores, cumulative_change, recordAt,
      max_by_value, change_at, calculate_portfolio_value, List.lookup,
      apply_swap_fee, apply_transaction_fee, SWAP_FEE_PERCENTAGE, TRANSACTION_FEES,
      List.range']
    norm_num
  have h2 : max (apply_transaction_fee (apply_swap_fee ((999 / 10) * (1 +
      (((day_changes_as_percentages exTable2 1).lookup "nano").getD 0) / 100)))
      "nano") 0 = 998001 / 10000 := by
    simp [day_changes_as_percentages, exTable2, recordAt, List.lookup,
      apply_swap_fee, apply_transaction_fee, SWAP_FEE_PERCENTAGE, TRANSACTION_FEES]
    norm_num
  rw [h1, h2]
  norm_num

/-- C2 amended: for the highest and lowest strategies every day after day 0
applies exactly one multiplicative change update using the held asset (not
the new leader), then one swap fee and one flat transaction fee for the
held asset, floored at zero; the wave strategy instead applies that
update-and-fee step twice on each such day, first with the held asset and
then again with the newly selected leader. -/
theorem daily_transition (data : Table) (day rem : Nat) (pv : ℚ) (held : String)
    (h : held ≠ "") :
    highestLoop data day (rem + 1) pv held =
      highestLoop data (day + 1) rem
        (max (apply_transaction_fee (apply_swap_fee (pv * (1 +
          (((day_changes_as_percentages data day).lookup held).getD 0) / 100))) held) 0)
        (max_by_value (day_changes_as_percentages data day)) ∧
    lowestLoop data day (rem + 1) pv held =
      lowestLoop data (day + 1) rem
        (max (apply_transaction_fee (apply_swap_fee (pv * (1 +
          (((day_changes_as_percentages data day).lookup held).getD 0) / 100))) held) 0)
        (min_by_value (day_changes_as_percentages data day)) ∧
    waveLoop data day (rem + 1) pv held =
      waveLoop data (day + 1) rem
        (max (apply_transaction_fee (apply_swap_fee
          ((max (apply_transaction_fee (apply_swap_fee (pv * (1 +
              change_at data held day / 100))) held) 0) *
            (1 + change_at data (max_by_value (wave_scores data day)) day / 100)))
          (max_by_value (wave_scores data day))) 0)
        (max_by_value (wave_scores data day)) := by
  refine ⟨?_, ?_, ?_⟩ <;>
    simp [highestLoop, lowestLoop, waveLoop, h, calc_pv_single, lookup_single]

/-- Witness for the amended daily-transition theorem at a concrete input. -/
theorem daily_transition_witness :
    ("nano" : String) ≠ "" ∧
    (highestLoop exTable2 1 1 100 "nano" =
      highestLoop exTable2 2 0
        (max (apply_transaction_fee (apply_swap_fee ((100 : ℚ) * (1 +
          (((day_changes_as_percentages exTable2 1).lookup "nano").getD 0) / 100))) "nano") 0)
        (max_by_value (day_changes_as_percentages exTable2 1)) ∧
    lowestLoop exTable2 1 1 100 "nano" =
      lowestLoop exTable2 2 0
        (max (apply_transaction_fee (apply_swap_fee ((100 : ℚ) * (1 +
          (((day_changes_as_percentages exTable2 1).lookup "nano").getD 0) / 100))) "nano") 0)
        (min_by_value (day_changes_as_percentages exTable2 1)) ∧
    waveLoop exTable2 1 1 100 "nano" =
      waveLoop exTable2 2 0
        (max (apply_transaction_fee (apply_swap_fee
          ((max (apply_transaction_fee (apply_swap_fee ((100 : ℚ) * (1 +
              change_at exTable2 "nano" 1 / 100))) "nano") 0) *
            (1 + change_at exTable2 (max_by_value (wave_scores exTable2 1)) 1 / 100)))
          (max_by_value (wave_scores exTable2 1))) 0)
        (max_by_value (wave_scores exTable2 1))) :=
  ⟨by decide, daily_transition exTable2 1 0 100 "nano" (by decide)⟩

/-- C8: the concrete fee values: apply_swap_fee 100 = 99.9,
apply_transaction_fee 100 nano = 100, apply_transaction_fee 100 bitcoin
= 98, the swap rate is 0.001, the flat-fee table gives nano 0 and
bitcoin 2. -/
theorem fee_model_values :
    apply_swap_fee 100 = 99.9 ∧
    apply_transaction_fee 100 "nano" = 100 ∧
    apply_transaction_fee 100 "bitcoin" = 98 ∧
    SWAP_FEE_PERCENTAGE = 0.001 ∧
    TRANSACTION_FEES.lookup "nano" = some 0 ∧
    TRANSACTION_FEES.lookup "bitcoin" = some 2 := by
  refine ⟨?_, ?_, ?_, ?_, ?_, ?_⟩
  · norm_num [apply_swap_fee, SWAP_FEE_PERCENTAGE]
  · simp [apply_transaction_fee, TRANSACTION_FEES, List.lookup]
    norm_num
  · simp [apply_transaction_fee, TRANSACTION_FEES, List.lookup]
    norm_num
  · norm_num [SWAP_FEE_PERCENTAGE]
  · simp [TRANSACTION_FEES, List.lookup]
    norm_num
  · simp [TRANSACTION_FEES, List.lookup]
    norm_num

/-- C9: with days = 0 every strategy returns the initial portfolio value
unchanged, for every data table and every initial value. -/
theorem strategies_days_zero (data : Table) (v : ℚ) (p q : String) :
    highest_change_trading_strategy data v 0 p = v ∧
    lowest_change_trading_strategy data v 0 q = v ∧
    catch_the_wave_strategy data v 0 = v :=
  ⟨rfl, rfl, rfl⟩

/-- C10: the top_performer_from_yesterday and
bottom_performer_from_yesterday parameters have no effect on the result of
the highest and lowest strategies: they are overwritten with the empty
string before first use. -/
theorem performer_param_no_effect (data : Table) (v : ℚ) (days : Nat)
    (p1 p2 q1 q2 : String) :
    highest_change_trading_strategy data v days p1 =
      highest_change_trading_strategy data v days p2 ∧
    lowest_change_trading_strategy data v days q1 =
      lowest_change_trading_strategy data v days q2 :=
  ⟨rfl, rfl⟩

/-- Association lookup among day groups, the membership test and access
that Python performs on the daily_data dictionary. -/
def findGroup : List (Nat × List ℚ) → Nat → Option (List ℚ)
  | [], _ => none
  | g :: t, d => if g.1 = d then some g.2 else findGroup t d

/-- One step of the grouping loop shared by the fetchers of invest.py,
crypto_recommendation.py and cryptolog.py: append the price to the group of
its date, creating a new group at the end when the date is new. -/
def insertSample (daily_data : List (Nat × List ℚ)) (date : Nat) (price : ℚ) :
    List (Nat × List ℚ) :=
  if (findGroup daily_data date).isSome then
    daily_data.map (fun g => if g.1 = date then (g.1, g.2 ++ [price]) else g)
  else daily_data ++ [(date, [price])]

/-- Group price samples by calendar day, preserving input order inside each
group; a date stands for the UTC calendar day of the sample timestamp. -/
def group_daily (prices : List (Nat × ℚ)) : List (Nat × List ℚ) :=
  prices.foldl (fun acc s => insertSample acc s.1 s.2) []

/-- Insertion into a date-sorted list of day groups. -/
def insertByDate (g : Nat × List ℚ) : List (Nat × List ℚ) → List (Nat × List ℚ)
  | [] => [g]
  | h :: t => if g.1 ≤ h.1 then g :: h :: t else h :: insertByDate g t

/-- Python sorted over daily_data.items(): the day groups in ascending date
order; group dates are unique, so any sorting method yields this list. -/
def sortByDate (l : List (Nat × List ℚ)) : List (Nat × List ℚ) :=
  l.foldr insertByDate []

/-- The per-day records emitted for one asset by the fetchers: for each day
group, opening price is the first sample, closing price the last, and the
change is the relative difference times 100. -/
def formatted_data (prices : List (Nat × ℚ)) : List DailyRecord :=
  (sortByDate (group_daily prices)).map (fun g =>
    let opening_price := g.2.headD 0
    let closing_price := g.2.getLastD 0
    ⟨g.1, ((closing_price - opening_price) / opening_price) * 100, closing_price⟩)

/-- The price samples carrying the given date, in input order. -/
def samplesOf (date : Nat) (prices : List (Nat × ℚ)) : List ℚ :=
  (prices.filter (fun s => s.1 == date)).map Prod.snd

theorem samplesOf_nil (d : Nat) : samplesOf d [] = [] := rfl

theorem samplesOf_cons (d : Nat) (s : Nat × ℚ) (rest : List (Nat × ℚ)) :
    samplesOf d (s :: rest) =
      if s.1 = d then s.2 :: samplesOf d rest else samplesOf d rest := by
  by_cases h : s.1 = d <;> simp [samplesOf, h]

theorem findGroup_append (l1 l2 : List (Nat × List ℚ)) (d : Nat) :
    findGroup (l1 ++ l2) d =
      (findGroup l1 d).elim (findGroup l2 d) (fun l => some l) := by
  induction l1 with
  | nil => simp [findGroup]
  | cons g t ih =>
    by_cases h : g.1 = d <;> simp [findGroup, h, ih]

theorem findGroup_map_append (l : List (Nat × List ℚ)) (d : Nat) (p : ℚ) :
    findGroup (l.map (fun g => if g.1 = d then (g.1, g.2 ++ [p]) else g)) d =
      (findGroup l d).map (fun v => v ++ [p]) := by
  induction l with
  | nil => simp [findGroup]
  | cons g t ih =>
    by_cases h : g.1 = d <;> simp [findGroup, h, ih]

theorem findGroup_map_append_ne (l : List (Nat × List ℚ)) (e d : Nat) (p : ℚ)
    (h : e ≠ d) :
    findGroup (l.map (fun g => if g.1 = e then (g.1, g.2 ++ [p]) else g)) d =
      findGroup l d := by
  induction l with
  | nil => simp [findGroup]
  | cons g t ih =>
    by_cases hg : g.1 = e
    · have hgd : g.1 ≠ d := by rw [hg]; exact h
      simp [findGroup, hg, hgd, h, ih]
    · by_cases hgd : g.1 = d
      · simp [findGroup, hg, hgd, Ne.symm h, ih]
      · simp [findGroup, hg, hgd, ih]

theorem findGroup_insertSample_some (acc : List (Nat × List ℚ)) (d : Nat)
    (p : ℚ) (l : List ℚ) (h : findGroup acc d = some l) :
    findGroup (insertSample acc d p) d = some (l ++ [p]) := by
  rw [insertSample, h]
  simp [findGroup_map_append, h]

theorem findGroup_insertSample_none (acc : List (Nat × List ℚ)) (d : Nat)
    (p : ℚ) (h : findGroup acc d = none) :
    findGroup (insertSample acc d p) d = some [p] := by
  rw [insertSample, h]
  simp [findGroup_append, h, findGroup]

theorem findGroup_insertSample_ne (acc : List (Nat × List ℚ)) (e d : Nat)
    (p : ℚ) (h : e ≠ d) :
    findGroup (insertSample acc e p) d = findGroup acc d := by
  rw [insertSample]
  cases hfe : findGroup acc e with
  | some l => simp [findGroup_map_append_ne _ _ _ _ h]
  | none =>
    rw [if_neg (by simp)]
    rw [findGroup_append]
    cases hfd : findGroup acc d with
    | some l => simp
    | none => simp [findGroup, h]

theorem findGroup_group_fold (prices : List (Nat × ℚ)) :
    ∀ (acc : List (Nat × List ℚ)) (d : Nat),
      findGroup (prices.foldl (fun a s => insertSample a s.1 s.2) acc) d =
        (findGroup acc d).elim
          (if samplesOf d prices = [] then none else some (samplesOf d prices))
          (fun l => some (l ++ samplesOf d prices)) := by
  induction prices with
  | nil =>
    intro acc d
    cases hfd : findGroup acc d <;> simp [samplesOf_nil, hfd]
  | cons s rest ih =>
    intro acc d
    rw [List.foldl_cons, ih]
    by_cases hsd : s.1 = d
    · rw [samplesOf_cons, if_pos hsd]
      subst hsd
      cases hfd : findGroup acc s.1 with
      | some l =>
        rw [findGroup_insertSample_some _ _ _ _ hfd]
        simp [List.append_assoc]
      | none =>
        rw [findGroup_insertSample_none _ _ _ hfd]
        simp
    · rw [samplesOf_cons, if_neg hsd, findGroup_insertSample_ne _ _ _ _ hsd]

theorem findGroup_eq_none_iff (l : List (Nat × List ℚ)) (d : Nat) :
    findGroup l d = none ↔ d ∉ l.map Prod.fst := by
  induction l with
  | nil => simp [findGroup]
  | cons g t ih =>
    by_cases h : g.1 = d
    · simp [findGroup, h, ih]
    · simp [findGroup, h, ih, Ne.symm h]

theorem findGroup_group_daily (prices : List (Nat × ℚ)) (d : Nat) :
    findGroup (group_daily prices) d =
      if samplesOf d prices = [] then none else some (samplesOf d prices) := by
  have h := findGroup_group_fold prices [] d
  simpa [group_daily, findGroup] using h

theorem keys_insertSample_some (acc : List (Nat × List ℚ)) (d : Nat) (p : ℚ)
    (l : List ℚ) (h : findGroup acc d = some l) :
    (insertSample acc d p).map Prod.fst = acc.map Prod.fst := by
  have hc : (Prod.fst ∘ fun g : Nat × List ℚ =>
      if g.1 = d then (g.1, g.2 ++ [p]) else g) = Prod.fst := by
    funext g
    by_cases hg : g.1 = d <;> simp [hg]
  rw [insertSample, h]
  simp [List.map_map, hc]

theorem keys_insertSample_none (acc : List (Nat × List ℚ)) (d : Nat) (p : ℚ)
    (h : findGroup acc d = none) :
    (insertSample acc d p).map Prod.fst = acc.map Prod.fst ++ [d] := by
  rw [insertSample, h]
  simp

theorem nodup_keys_group_fold (prices : List (Nat × ℚ)) :
    ∀ (acc : List (Nat × List ℚ)), (acc.map Prod.fst).Nodup →
      ((prices.foldl (fun a s => insertSample a s.1 s.2) acc).map Prod.fst).Nodup := by
  induction prices with
  | nil => intro acc h; exact h
  | cons s rest ih =>
    intro acc h
    rw [List.foldl_cons]
    apply ih
    cases hfd : findGroup acc s.1 with
    | some l => rw [keys_insertSample_some _ _ _ _ hfd]; exact h
    | none =>
      rw [keys_insertSample_none _ _ _ hfd]
      have hnm : s.1 ∉ acc.map Prod.fst := (findGroup_eq_none_iff _ _).mp hfd
      simp [List.nodup_append, h, hnm]

theorem findGroup_of_mem (l : List (Nat × List ℚ)) (g : Nat × List ℚ)
    (hnd : (l.map Prod.fst).Nodup) (hg : g ∈ l) : findGroup l g.1 = some g.2 := by
  induction l with
  | nil => cases hg
  | cons h t ih =>
    rcases List.mem_cons.mp hg with rfl | hgt
    · simp [findGroup]
    · have hne : h.1 ≠ g.1 := by
        intro heq
        have : g.1 ∈ t.map Prod.fst := List.mem_map_of_mem Prod.fst hgt
        rw [← heq] at this
        exact (List.nodup_cons.mp hnd).1 this
      simp only [findGroup, if_neg hne]
      exact ih (List.nodup_cons.mp hnd).2 hgt

theorem mem_insertByDate (x g : Nat × List ℚ) (l : List (Nat × List ℚ)) :
    x ∈ insertByDate g l ↔ x = g ∨ x ∈ l := by
  induction l with
  | nil => simp [insertByDate]
  | cons h t ih =>
    by_cases hle : g.1 ≤ h.1
    · simp [insertByDate, hle]
    · simp [insertByDate, hle, ih]
      tauto

theorem mem_sortByDate (x : Nat × List ℚ) (l : List (Nat × List ℚ)) :
    x ∈ sortByDate l ↔ x ∈ l := by
  induction l with
  | nil => simp [sortByDate]
  | cons h t ih =>
    show x ∈ insertByDate h (sortByDate t) ↔ _
    rw [mem_insertByDate, ih]
    simp

/-- C5: every record emitted by the daily aggregation has the change
((closing - opening) / opening) times 100 and the closing value as its
end-of-day field, where opening is the first and closing the last price
sample of that calendar day in input order. -/
theorem formatted_data_change_formula (prices : List (Nat × ℚ))
    (rec : DailyRecord) (h : rec ∈ formatted_data prices) :
    samplesOf rec.date prices ≠ [] ∧
    rec.change = (((samplesOf rec.date prices).getLastD 0 -
        (samplesOf rec.date prices).headD 0) /
      (samplesOf rec.date prices).headD 0) * 100 ∧
    rec.end_of_day_value = (samplesOf rec.date prices).getLastD 0 := by
  obtain ⟨g, hg, rfl⟩ := List.mem_map.mp h
  rw [mem_sortByDate] at hg
  have hnd : ((group_daily prices).map Prod.fst).Nodup :=
    nodup_keys_group_fold prices [] (by simp)
  have hfind : findGroup (group_daily prices) g.1 = some g.2 :=
    findGroup_of_mem _ _ hnd hg
  rw [findGroup_group_daily] at hfind
  by_cases hs : samplesOf g.1 prices = []
  · rw [if_pos hs] at hfind
    cases hfind
  · rw [if_neg hs] at hfind
    injection hfind with hg2
    refine ⟨?_, ?_, ?_⟩
    · simpa using hs
    · simp [← hg2]
    · simp [← hg2]

/-- Witness for the daily-change formula at a concrete two-sample input. -/
theorem formatted_data_change_formula_witness :
    ((⟨1, 20, 12⟩ : DailyRecord) ∈ formatted_data [(1, 10), (1, 12)]) ∧
    (samplesOf 1 [(1, 10), (1, 12)] ≠ [] ∧
     (20 : ℚ) = (((samplesOf 1 [(1, 10), (1, 12)]).getLastD 0 -
         (samplesOf 1 [(1, 10), (1, 12)]).headD 0) /
       (samplesOf 1 [(1, 10), (1, 12)]).headD 0) * 100 ∧
     (12 : ℚ) = (samplesOf 1 [(1, 10), (1, 12)]).getLastD 0) := by
  have hmem : (⟨1, 20, 12⟩ : DailyRecord) ∈ formatted_data [(1, 10), (1, 12)] := by
    simp [formatted_data, group_daily, insertSample, findGroup, sortByDate,
      insertByDate]
    norm_num
  exact ⟨hmem, formatted_data_change_formula _ _ hmem⟩

/-- One step of the latest-date scan of crypto_recommendation.py: keep the
running maximum date seen so far, starting from none. -/
def latestStep (acc : Option Nat) (entry : DailyRecord) : Option Nat :=
  match acc with
  | none => some entry.date
  | some d => if d < entry.date then some entry.date else some d

/-- The most recent date across the records of all assets, none when there
are no records at all; computed by both selector functions of
crypto_recommendation.py. -/
def latest_date (weekly_data : Table) : Option Nat :=
  weekly_data.foldl (fun acc p => p.2.foldl latestStep acc) none

/-- One step of the selection scan shared by both selectors of
crypto_recommendation.py: the first entry of the asset carrying the latest
date (the Python inner loop breaks there) is compared with the best
candidate so far; better is strictly-greater for the highest selector and
strictly-less for the lowest, and a best of none stands for the initial
minus or plus infinity, which every value beats. -/
def scanStep (better : ℚ → ℚ → Bool) (latest : Nat)
    (best : Option (String × ℚ)) (p : String × List DailyRecord) :
    Option (String × ℚ) :=
  match p.2.find? (fun e => e.date == latest) with
  | none => best
  | some e =>
    match best with
    | none => some (p.1, e.end_of_day_value)
    | some b =>
      if better e.end_of_day_value b.2 then some (p.1, e.end_of_day_value) else best

/-- The selection scan over all assets, in mapping order. -/
def scanBest (better : ℚ → ℚ → Bool) (weekly_data : Table) (latest : Nat) :
    Option (String × ℚ) :=
  weekly_data.foldl (scanStep better latest) none

/-- crypto_recommendation.py get_crypto_with_highest_end_of_day_value, with
raising ValueError modelled by Except.error. -/
def get_crypto_with_highest_end_of_day_value (weekly_data : Table) :
    Except String String :=
  match latest_date weekly_data with
  | none => Except.error "No data available."
  | some latest =>
    match scanBest (fun x b => decide (b < x)) weekly_data latest with
    | none => Except.error "No data available for the most recent day."
    | some b => Except.ok b.1

/-- crypto_recommendation.py get_crypto_with_lowest_end_of_day_value. -/
def get_crypto_with_lowest_end_of_day_value (weekly_data : Table) :
    Except String String :=
  match latest_date weekly_data with
  | none => Except.error "No data available."
  | some latest =>
    match scanBest (fun x b => decide (x < b)) weekly_data latest with
    | none => Except.error "No data available for the most recent day."
    | some b => Except.ok b.1

theorem latestStep_isSome (acc : Option Nat) (e : DailyRecord) :
    (latestStep acc e).isSome := by
  cases acc with
  | none => simp [latestStep]
  | some d =>
    simp only [latestStep]
    split <;> simp

theorem latestFold_none_iff (l : List DailyRecord) :
    ∀ acc : Option Nat, l.foldl latestStep acc = none ↔ acc = none ∧ l = [] := by
  induction l with
  | nil => intro acc; simp
  | cons e t ih =>
    intro acc
    rw [List.foldl_cons, ih]
    have h := latestStep_isSome acc e
    constructor
    · rintro ⟨h1, _⟩
      rw [h1] at h
      cases h
    · rintro ⟨_, h2⟩
      cases h2

theorem latest_date_none_iff (w : Table) :
    latest_date w = none ↔ ∀ p ∈ w, p.2 = [] := by
  suffices h : ∀ (v : Table) (acc : Option Nat),
      v.foldl (fun a p => p.2.foldl latestStep a) acc = none ↔
        acc = none ∧ ∀ p ∈ v, p.2 = [] by
    rw [latest_date, h]
    simp
  intro v
  induction v with
  | nil => intro acc; simp
  | cons q t ih =>
    intro acc
    rw [List.foldl_cons, ih, latestFold_none_iff]
    constructor
    · rintro ⟨⟨h1, h2⟩, h3⟩
      refine ⟨h1, ?_⟩
      intro p hp
      rcases List.mem_cons.mp hp with rfl | hpt
      · exact h2
      · exact h3 p hpt
    · rintro ⟨h1, h2⟩
      exact ⟨⟨h1, h2 q (List.mem_cons_self q t)⟩,
        fun p hp => h2 p (List.mem_cons_of_mem q hp)⟩

theorem latestFold_attained (l : List DailyRecord) :
    ∀ (acc : Option Nat) (d : Nat), l.foldl latestStep acc = some d →
      acc = some d ∨ ∃ r ∈ l, r.date = d := by
  induction l with
  | nil => intro acc d h; exact Or.inl h
  | cons e t ih =>
    intro acc d h
    rw [List.foldl_cons] at h
    rcases ih _ _ h with hstep | ⟨r, hr, hrd⟩
    · cases acc with
      | none =>
        simp only [latestStep] at hstep
        injection hstep with hd
        exact Or.inr ⟨e, List.mem_cons_self e t, hd⟩
      | some c =>
        simp only [latestStep] at hstep
        by_cases hc : c < e.date
        · rw [if_pos hc] at hstep
          injection hstep with hd
          exact Or.inr ⟨e, List.mem_cons_self e t, hd⟩
        · rw [if_neg hc] at hstep
          exact Or.inl hstep
    · exact Or.inr ⟨r, List.mem_cons_of_mem e hr, hrd⟩

theorem latest_date_attained (w : Table) (d : Nat)
    (h : latest_date w = some d) : ∃ p ∈ w, ∃ r ∈ p.2, r.date = d := by
  suffices hs : ∀ (v : Table) (acc : Option Nat),
      v.foldl (fun a p => p.2.foldl latestStep a) acc = some d →
        acc = some d ∨ ∃ p ∈ v, ∃ r ∈ p.2, r.date = d by
    rcases hs w none h with hacc | hp
    · cases hacc
    · exact hp
  intro v
  induction v with
  | nil => intro acc h0; exact Or.inl h0
  | cons q t ih =>
    intro acc h0
    rw [List.foldl_cons] at h0
    rcases ih _ h0 with hstep | ⟨p, hp, hr⟩
    · rcases latestFold_attained q.2 acc d hstep with hacc | ⟨r, hr, hrd⟩
      · exact Or.inl hacc
      · exact Or.inr ⟨q, List.mem_cons_self q t, r, hr, hrd⟩
    · exact Or.inr ⟨p, List.mem_cons_of_mem q hp, hr⟩

theorem scanStep_isSome_of_some (better : ℚ → ℚ → Bool) (latest : Nat)
    (b : String × ℚ) (p : String × List DailyRecord) :
    (scanStep better latest (some b) p).isSome := by
  cases hf : p.2.find? (fun e => e.date == latest) with
  | none => simp [scanStep, hf]
  | some e =>
    simp only [scanStep, hf]
    split <;> simp

theorem scanStep_isSome_of_find (better : ℚ → ℚ → Bool) (latest : Nat)
    (acc : Option (String × ℚ)) (p : String × List DailyRecord)
    (h : (p.2.find? (fun e => e.date == latest)).isSome) :
    (scanStep better latest acc p).isSome := by
  cases hf : p.2.find? (fun e => e.date == latest) with
  | none => rw [hf] at h; cases h
  | some e =>
    cases acc with
    | none => simp [scanStep, hf]
    | some b =>
      simp only [scanStep, hf]
      split <;> simp

theorem scanFold_isSome (better : ℚ → ℚ → Bool) (latest : Nat) (w : Table) :
    ∀ acc : Option (String × ℚ), acc.isSome →
      (w.foldl (scanStep better latest) acc).isSome := by
  induction w with
  | nil => intro acc h; exact h
  | cons q t ih =>
    intro acc h
    rw [List.foldl_cons]
    cases acc with
    | none => cases h
    | some b => exact ih _ (scanStep_isSome_of_some better latest b q)

theorem scanFold_reaches_some (better : ℚ → ℚ → Bool) (latest : Nat) (w : Table) :
    ∀ acc : Option (String × ℚ),
      (∃ p ∈ w, (p.2.find? (fun e => e.date == latest)).isSome) →
      (w.foldl (scanStep better latest) acc).isSome := by
  induction w with
  | nil =>
    rintro acc ⟨p, hp, _⟩
    cases hp
  | cons q t ih =>
    rintro acc ⟨p, hp, hfind⟩
    rw [List.foldl_cons]
    rcases List.mem_cons.mp hp with rfl | hpt
    · exact scanFold_isSome better latest t _
        (scanStep_isSome_of_find better latest acc p hfind)
    · exact ih _ ⟨p, hpt, hfind⟩

theorem scanFold_mem (better : ℚ → ℚ → Bool) (latest : Nat) (w : Table) :
    ∀ (acc : Option (String × ℚ)) (b : String × ℚ),
      w.foldl (scanStep better latest) acc = some b →
      acc = some b ∨ b.1 ∈ w.map Prod.fst := by
  induction w with
  | nil => intro acc b h; exact Or.inl h
  | cons q t ih =>
    intro acc b h
    rw [List.foldl_cons] at h
    rcases ih _ _ h with hstep | hmem
    · cases hf : q.2.find? (fun e => e.date == latest) with
      | none =>
        simp only [scanStep, hf] at hstep
        exact Or.inl hstep
      | some e =>
        cases acc with
        | none =>
          simp only [scanStep, hf] at hstep
          injection hstep with hb
          rw [← hb]
          exact Or.inr (by simp)
        | some c =>
          simp only [scanStep, hf] at hstep
          by_cases hbt : better e.end_of_day_value c.2
          · rw [if_pos hbt] at hstep
            injection hstep with hb
            rw [← hb]
            exact Or.inr (by simp)
          · rw [if_neg hbt] at hstep
            exact Or.inl hstep
    · refine Or.inr ?_
      rw [List.map_cons]
      exact List.mem_cons_of_mem q.1 hmem

theorem scanFold_no_match (better : ℚ → ℚ → Bool) (latest : Nat) (w : Table)
    (h : ∀ p ∈ w, p.2.find? (fun e => e.date == latest) = none) :
    ∀ acc : Option (String × ℚ), w.foldl (scanStep better latest) acc = acc := by
  induction w with
  | nil => intro acc; rfl
  | cons q t ih =>
    intro acc
    rw [List.foldl_cons]
    have hq := h q (List.mem_cons_self q t)
    rw [show scanStep better latest acc q = acc by simp [scanStep, hq]]
    exact ih (fun p hp => h p (List.mem_cons_of_mem q hp)) acc

theorem scanBest_ok (better : ℚ → ℚ → Bool) (w : Table) (d : Nat)
    (h2 : ∃ p ∈ w, ∃ r ∈ p.2, r.date = d) :
    ∃ b, scanBest better w d = some b ∧ b.1 ∈ w.map Prod.fst := by
  have hfind : ∃ p ∈ w, (p.2.find? (fun e => e.date == d)).isSome := by
    obtain ⟨p, hp, r, hr, hrd⟩ := h2
    refine ⟨p, hp, ?_⟩
    rw [List.find?_isSome]
    exact ⟨r, hr, by simp [hrd]⟩
  have hsome := scanFold_reaches_some better d w none hfind
  obtain ⟨b, hb⟩ := Option.isSome_iff_exists.mp hsome
  refine ⟨b, hb, ?_⟩
  rcases scanFold_mem better d w none b hb with hacc | hmem
  · cases hacc
  · exact hmem

theorem scanBest_single (better : ℚ → ℚ → Bool) (d : Nat)
    (w1 w2 : Table) (a : String) (recs : List DailyRecord)
    (hn1 : ∀ p ∈ w1, ∀ r ∈ p.2, r.date ≠ d)
    (hn2 : ∀ p ∈ w2, ∀ r ∈ p.2, r.date ≠ d)
    (hrec : (recs.find? (fun e => e.date == d)).isSome) :
    ∃ v, scanBest better (w1 ++ (a, recs) :: w2) d = some (a, v) := by
  have k1 : ∀ p ∈ w1, p.2.find? (fun e => e.date == d) = none := by
    intro p hp
    rw [List.find?_eq_none]
    intro r hr
    simp [hn1 p hp r hr]
  have k2 : ∀ p ∈ w2, p.2.find? (fun e => e.date == d) = none := by
    intro p hp
    rw [List.find?_eq_none]
    intro r hr
    simp [hn2 p hp r hr]
  obtain ⟨e, he⟩ := Option.isSome_iff_exists.mp hrec
  rw [scanBest, List.foldl_append, scanFold_no_match better d w1 k1 none,
    List.foldl_cons,
    show scanStep better d none (a, recs) = some (a, e.end_of_day_value) by
      simp [scanStep, he],
    scanFold_no_match better d w2 k2 _]
  exact ⟨e.end_of_day_value, rfl⟩

/-- C6: whenever some asset has a record for the computed most recent date,
both selectors return an asset present in the mapping; and when exactly one
asset has such a record, both return that asset, regardless of its value. -/
theorem selectors_return_member (w : Table) (d : Nat)
    (h1 : latest_date w = some d)
    (h2 : ∃ p ∈ w, ∃ r ∈ p.2, r.date = d) :
    (∃ a, get_crypto_with_highest_end_of_day_value w = Except.ok a ∧
      a ∈ w.map Prod.fst) ∧
    (∃ a, get_crypto_with_lowest_end_of_day_value w = Except.ok a ∧
      a ∈ w.map Prod.fst) ∧
    (∀ w1 w2 a recs, w = w1 ++ (a, recs) :: w2 →
      (∀ p ∈ w1, ∀ r ∈ p.2, r.date ≠ d) →
      (∀ p ∈ w2, ∀ r ∈ p.2, r.date ≠ d) →
      get_crypto_with_highest_end_of_day_value w = Except.ok a ∧
      get_crypto_with_lowest_end_of_day_value w = Except.ok a) := by
  refine ⟨?_, ?_, ?_⟩
  · obtain ⟨b, hb, hmem⟩ := scanBest_ok (fun x b => decide (b < x)) w d h2
    exact ⟨b.1, by simp [get_crypto_with_highest_end_of_day_value, h1, hb], hmem⟩
  · obtain ⟨b, hb, hmem⟩ := scanBest_ok (fun x b => decide (x < b)) w d h2
    exact ⟨b.1, by simp [get_crypto_with_lowest_end_of_day_value, h1, hb], hmem⟩
  · intro w1 w2 a recs hw hm1 hm2
    subst hw
    have hrec : (recs.find? (fun e => e.date == d)).isSome := by
      obtain ⟨p, hp, r, hr, hrd⟩ := h2
      rcases List.mem_append.mp hp with hp1 | hp2
      · exact absurd hrd (hm1 p hp1 r hr)
      · rcases List.mem_cons.mp hp2 with rfl | hp3
        · rw [List.find?_isSome]
          exact ⟨r, hr, by simp [hrd]⟩
        · exact absurd hrd (hm2 p hp3 r hr)
    obtain ⟨v1, hv1⟩ :=
      scanBest_single (fun x b => decide (b < x)) d w1 w2 a recs hm1 hm2 hrec
    obtain ⟨v2, hv2⟩ :=
      scanBest_single (fun x b => decide (x < b)) d w1 w2 a recs hm1 hm2 hrec
    constructor
    · simp [get_crypto_with_highest_end_of_day_value, h1, hv1]
    · simp [get_crypto_with_lowest_end_of_day_value, h1, hv2]

/-- Concrete one-asset mapping with one record, dated day 5. -/
def exTable3 : Table := [("nano", [⟨5, 0, 1⟩])]

/-- Witness for the selector membership theorem at a concrete input. -/
theorem selectors_return_member_witness :
    latest_date exTable3 = some 5 ∧
    (∃ p ∈ exTable3, ∃ r ∈ p.2, r.date = 5) ∧
    ((∃ a, get_crypto_with_highest_end_of_day_value exTable3 = Except.ok a ∧
       a ∈ exTable3.map Prod.fst) ∧
     (∃ a, get_crypto_with_lowest_end_of_day_value exTable3 = Except.ok a ∧
       a ∈ exTable3.map Prod.fst) ∧
     (∀ w1 w2 a recs, exTable3 = w1 ++ (a, recs) :: w2 →
       (∀ p ∈ w1, ∀ r ∈ p.2, r.date ≠ 5) →
       (∀ p ∈ w2, ∀ r ∈ p.2, r.date ≠ 5) →
       get_crypto_with_highest_end_of_day_value exTable3 = Except.ok a ∧
       get_crypto_with_lowest_end_of_day_value exTable3 = Except.ok a)) := by
  have h1 : latest_date exTable3 = some 5 := rfl
  have h2 : ∃ p ∈ exTable3, ∃ r ∈ p.2, r.date = 5 :=
    ⟨("nano", [⟨5, 0, 1⟩]), by simp [exTable3], ⟨5, 0, 1⟩, by simp, rfl⟩
  exact ⟨h1, h2, selectors_return_member exTable3 5 h1 h2⟩

/-- C7: each selector raises exactly when the mapping holds no records at
all, or when no asset has a record dated with the computed most recent
date; in all other cases it returns normally. -/
theorem selectors_error_iff (w : Table) :
    ((∃ e, get_crypto_with_highest_end_of_day_value w = Except.error e) ↔
      ((∀ p ∈ w, p.2 = []) ∨
        (∀ d, latest_date w = some d → ∀ p ∈ w, ∀ r ∈ p.2, r.date ≠ d))) ∧
    ((∃ e, get_crypto_with_lowest_end_of_day_value w = Except.error e) ↔
      ((∀ p ∈ w, p.2 = []) ∨
        (∀ d, latest_date w = some d → ∀ p ∈ w, ∀ r ∈ p.2, r.date ≠ d))) := by
  cases hld : latest_date w with
  | none =>
    have hempty : ∀ p ∈ w, p.2 = [] := (latest_date_none_iff w).mp hld
    refine ⟨⟨fun _ => Or.inl hempty, fun _ => ⟨"No data available.", ?_⟩⟩,
      ⟨fun _ => Or.inl hempty, fun _ => ⟨"No data available.", ?_⟩⟩⟩
    · simp [get_crypto_with_highest_end_of_day_value, hld]
    · simp [get_crypto_with_lowest_end_of_day_value, hld]
  | some d =>
    have h2 := latest_date_attained w d hld
    obtain ⟨bh, hbh, _⟩ := scanBest_ok (fun x b => decide (b < x)) w d h2
    obtain ⟨bl, hbl, _⟩ := scanBest_ok (fun x b => decide (x < b)) w d h2
    have hokh : get_crypto_with_highest_end_of_day_value w = Except.ok bh.1 := by
      simp [get_crypto_with_highest_end_of_day_value, hld, hbh]
    have hokl : get_crypto_with_lowest_end_of_day_value w = Except.ok bl.1 := by
      simp [get_crypto_with_lowest_end_of_day_value, hld, hbl]
    have hrhs : ¬((∀ p ∈ w, p.2 = []) ∨
        (∀ e, some d = some e → ∀ p ∈ w, ∀ r ∈ p.2, r.date ≠ e)) := by
      rintro (hempty | hnone)
      · have hn := (latest_date_none_iff w).mpr hempty
        rw [hn] at hld
        cases hld
      · obtain ⟨p, hp, r, hr, hrd⟩ := h2
        exact absurd hrd (hnone d rfl p hp r hr)
    refine ⟨⟨?_, fun hr => absurd hr hrhs⟩, ⟨?_, fun hr => absurd hr hrhs⟩⟩
    · rintro ⟨e, he⟩
      rw [hokh] at he
      exact absurd he (by simp)
    · rintro ⟨e, he⟩
      rw [hokl] at he
      exact absurd he (by simp)

end Crypto
